import Mathlib

/-!
Verification of the CoNLL-2012 coreference reader (`conll.py` and `lang.py`).

Modelling conventions:
* Python strings are modelled as `List Char` (`PyStr`); an input stream is a
  `List PyStr` of its lines with the trailing newline removed, and reading at
  end of stream corresponds to the empty list.
* Python exceptions (`ValueError`, `IndexError`, `StopIteration`, and the
  `Exception` raised by `read_conll_document`) are modelled as
  `Except String _` error results; the exact message text is not modelled
  beyond a label identifying the kind of failure.
* `int(...)` is modelled by `parseInt`: an optional sign followed by one or
  more decimal digits (the only shapes arising from this format).
* The generator `read_conll_file` is modelled as the list of all documents it
  yields (or the first error raised while producing them); the recursion is
  bounded by a fuel argument which provably never runs out on any finite
  stream.
-/

namespace Conll

instance {ε α : Type} [DecidableEq ε] [DecidableEq α] : DecidableEq (Except ε α) :=
  fun a b =>
    match a, b with
    | Except.ok x, Except.ok y =>
      if h : x = y then isTrue (by rw [h]) else isFalse (by intro hc; cases hc; exact h rfl)
    | Except.error x, Except.error y =>
      if h : x = y then isTrue (by rw [h]) else isFalse (by intro hc; cases hc; exact h rfl)
    | Except.ok _, Except.error _ => isFalse (by intro hc; cases hc)
    | Except.error _, Except.ok _ => isFalse (by intro hc; cases hc)

/-- Python strings, modelled as explicit character lists. -/
abbrev PyStr := List Char

/-- Python `str.strip()`: remove leading and trailing whitespace. -/
def pyStrip (s : PyStr) : PyStr :=
  ((s.dropWhile Char.isWhitespace).reverse.dropWhile Char.isWhitespace).reverse

/-- Split a character list at every character satisfying `p`, keeping empty
pieces (the behaviour of Python `str.split(sep)` for a one-character `sep`,
and the raw phase of whitespace splitting). -/
def splitBy (p : Char → Bool) : PyStr → List PyStr
  | [] => [[]]
  | c :: rest =>
    let r := splitBy p rest
    if p c then [] :: r
    else
      match r with
      | [] => [[c]]
      | piece :: ps => (c :: piece) :: ps

/-- Python `str.split()` with no argument: split on whitespace runs and drop
empty fields. -/
def pySplit (s : PyStr) : List PyStr :=
  (splitBy Char.isWhitespace s).filter (fun f => f != [])

/-- Python `str.split('|')`. -/
def pySplitBar (s : PyStr) : List PyStr :=
  splitBy (fun c => c == '|') s

/-- Python `str.startswith(pre)`. -/
def pyStartsWith (pre s : PyStr) : Bool :=
  pre.isPrefixOf s

/-- Python `str.endswith(suf)`. -/
def pyEndsWith (suf s : PyStr) : Bool :=
  suf.isSuffixOf s

/-- Python list indexing `l[i]` for `i ≥ 0`; `IndexError` out of range. -/
def pyIdx (l : List PyStr) (i : Nat) : Except String PyStr :=
  match l.get? i with
  | some x => Except.ok x
  | none => Except.error "IndexError"

/-- Python `l[-1]`. -/
def pyLast (l : List PyStr) : Except String PyStr :=
  match l.getLast? with
  | some x => Except.ok x
  | none => Except.error "IndexError"

/-- Numeric value of a digit run. -/
def digitsVal (ds : List Char) : Nat :=
  ds.foldl (fun a c => a * 10 + (c.toNat - 48)) 0

/-- Python `int(s)` on the strings arising here: an optional sign followed by
one or more decimal digits; anything else raises `ValueError`. -/
def parseInt (s : PyStr) : Except String Int :=
  match s with
  | '-' :: ds =>
    if !ds.isEmpty && ds.all Char.isDigit then Except.ok (-(digitsVal ds : Int))
    else Except.error "ValueError"
  | '+' :: ds =>
    if !ds.isEmpty && ds.all Char.isDigit then Except.ok ((digitsVal ds : Int))
    else Except.error "ValueError"
  | ds =>
    if !ds.isEmpty && ds.all Char.isDigit then Except.ok ((digitsVal ds : Int))
    else Except.error "ValueError"

/-! ## `lang.py` -/

/-- The per-token rewriting inside `lang.Sentence.normalize`. -/
def normalizeToken (tok : PyStr) : PyStr :=
  if tok = "-LRB-".data then "(".data
  else if tok = "-RRB-".data then ")".data
  else tok

/-- `lang.Sentence.normalize`. -/
def normalize (tokens : List PyStr) : List PyStr :=
  tokens.map normalizeToken

/-- `lang.Sentence`: tokens plus (entity, start, stop) reference triples. -/
structure Sentence where
  tokens : List PyStr
  references : List (Int × Int × Int)
deriving DecidableEq

/-- `lang.Sentence.__init__`: the token list is normalized at construction. -/
def Sentence.make (tokens : List PyStr) (references : List (Int × Int × Int)) : Sentence :=
  ⟨normalize tokens, references⟩

/-- `lang.Document`. -/
structure Document where
  doc_id : PyStr
  tokens : List (List PyStr)
  mentions : List (List (Nat × Int × Int))
deriving DecidableEq

/-! ## `conll.py`: the segment decoder `process_conll_sentence` -/

/-- The mutable state of `process_conll_sentence`. -/
structure DecState where
  tokens : List PyStr
  open_list : List (Int × Int)
  spans : List (Int × Int × Int)
deriving DecidableEq

/-- The body of the `for coref in corefs` loop of `process_conll_sentence`,
acting on the pair (open_list, spans). -/
def processCode (word_position : Int) (acc : List (Int × Int) × List (Int × Int × Int))
    (coref : PyStr) : Except String (List (Int × Int) × List (Int × Int × Int)) :=
  let (open_list, spans) := acc
  if pyStartsWith "(".data coref && pyEndsWith ")".data coref then
    match parseInt ((coref.drop 1).dropLast) with
    | Except.error e => Except.error e
    | Except.ok entity => Except.ok (open_list, spans ++ [(entity, word_position, word_position)])
  else if pyStartsWith "(".data coref then
    match parseInt (coref.drop 1) with
    | Except.error e => Except.error e
    | Except.ok entity => Except.ok ((entity, word_position) :: open_list, spans)
  else if pyEndsWith ")".data coref then
    match parseInt coref.dropLast with
    | Except.error e => Except.error e
    | Except.ok entity =>
      match open_list.find? (fun x => x.1 == entity) with
      | none => Except.error "StopIteration"
      | some p =>
        Except.ok (open_list.erase (entity, p.2), spans ++ [(entity, p.2, word_position)])
  else Except.ok (open_list, spans)

/-- The `for coref in corefs` loop. -/
def processCodes (word_position : Int) (acc : List (Int × Int) × List (Int × Int × Int)) :
    List PyStr → Except String (List (Int × Int) × List (Int × Int × Int))
  | [] => Except.ok acc
  | c :: cs =>
    match processCode word_position acc c with
    | Except.error e => Except.error e
    | Except.ok acc2 => processCodes word_position acc2 cs

/-- One iteration of the `for line in sent.lines` loop of
`process_conll_sentence`. -/
def processLine (st : DecState) (line : PyStr) : Except String DecState :=
  let fields := pySplit line
  match pyIdx fields 2 with
  | Except.error e => Except.error e
  | Except.ok f2 =>
    match parseInt (pyStrip f2) with
    | Except.error e => Except.error e
    | Except.ok word_position =>
      match pyLast fields with
      | Except.error e => Except.error e
      | Except.ok flast =>
        match processCodes word_position (st.open_list, st.spans) (pySplitBar (pyStrip flast)) with
        | Except.error e => Except.error e
        | Except.ok (open2, spans2) =>
          match pyIdx fields 3 with
          | Except.error e => Except.error e
          | Except.ok f3 => Except.ok ⟨st.tokens ++ [pyStrip f3], open2, spans2⟩

/-- The `for line in sent.lines` loop. -/
def processLines (st : DecState) : List PyStr → Except String DecState
  | [] => Except.ok st
  | l :: ls =>
    match processLine st l with
    | Except.error e => Except.error e
    | Except.ok st2 => processLines st2 ls

/-- `process_conll_sentence`, applied to the lines of one segment. -/
def process_conll_sentence (lines : List PyStr) : Except String Sentence :=
  match processLines ⟨[], [], []⟩ lines with
  | Except.error e => Except.error e
  | Except.ok st => Except.ok (Sentence.make st.tokens st.spans)

/-! ## `conll.py`: chunks and the chunk reader -/

/-- The closed chunk variant of `conll.py` (classes `BeginDocument`,
`EndDocument`, `EndFile`, `Segment`). -/
inductive ConllChunk where
  | beginDocument (doc_id : PyStr)
  | endDocument
  | endFile
  | segment (lines : List PyStr)
deriving DecidableEq

/-- The `for line in inhandle` loop of `read_conll_chunk`: collect stripped
lines up to (and consuming) the next blank line or the end of the stream. -/
def gatherSegmentLines : List PyStr → List PyStr × List PyStr
  | [] => ([], [])
  | l :: rest =>
    if pyStrip l = [] then ([], rest)
    else (pyStrip l :: (gatherSegmentLines rest).1, (gatherSegmentLines rest).2)

/-- `read_conll_chunk`: read the next chunk off the stream, returning it
together with the unconsumed lines. The first line of a segment is kept
unstripped, matching the source. -/
def read_conll_chunk : List PyStr → ConllChunk × List PyStr
  | [] => (ConllChunk.endFile, [])
  | l :: rest =>
    if pyStrip l = [] then (ConllChunk.endFile, rest)
    else if pyStartsWith "#begin document".data l then
      (ConllChunk.beginDocument (pyStrip (l.drop "#begin document".data.length)), rest)
    else if pyStartsWith "#end document".data l then (ConllChunk.endDocument, rest)
    else (ConllChunk.segment (l :: (gatherSegmentLines rest).1), (gatherSegmentLines rest).2)

/-! ## `conll.py`: the document assembler `read_conll_document` -/

/-- The `while nextchunk.conll_type() == 'segment'` loop of
`read_conll_document`, with explicit fuel: collect segment chunks and return
them with the first non-segment chunk and the remaining stream. The fuel
`ls.length + 1` used by `readSegments` below is provably sufficient. -/
def readSegmentsFuel : Nat → List PyStr → List (List PyStr) × ConllChunk × List PyStr
  | 0, ls => ([], ConllChunk.endFile, ls)
  | fuel + 1, ls =>
    match read_conll_chunk ls with
    | (ConllChunk.segment s, rest) =>
      (s :: (readSegmentsFuel fuel rest).1, (readSegmentsFuel fuel rest).2)
    | (c, rest) => ([], c, rest)

/-- The segment-collecting loop of `read_conll_document`. -/
def readSegments (ls : List PyStr) : List (List PyStr) × ConllChunk × List PyStr :=
  readSegmentsFuel (ls.length + 1) ls

/-- `read_conll_document`: `none` on end of file, otherwise the document id
and the lines of its segments, plus the unconsumed stream. A chunk sequence
not of the form begin, segment*, end raises (`Except.error`). -/
def read_conll_document (ls : List PyStr) :
    Except String (Option (PyStr × List (List PyStr)) × List PyStr) :=
  match read_conll_chunk ls with
  | (ConllChunk.endFile, rest) => Except.ok (none, rest)
  | (ConllChunk.beginDocument doc_id, rest) =>
    match readSegments rest with
    | (segs, ConllChunk.endDocument, rest2) => Except.ok (some (doc_id, segs), rest2)
    | _ => Except.error "Unexpected chunk"
  | _ => Except.error "Unexpected chunk"

/-! ## `conll.py`: `process_conll_document` and `read_conll_file` -/

/-- `defaultdict(list)` with Python's insertion-ordered keys: append `v` to
the list stored under key `e`, creating the key at the end when absent. -/
def dictAppend {β : Type} : List (Int × List β) → Int → β → List (Int × List β)
  | [], e, v => [(e, [v])]
  | (k, vs) :: rest, e, v =>
    if k = e then (k, vs ++ [v]) :: rest else (k, vs) :: dictAppend rest e v

/-- The inner `for (entity, start, stop) in sent.references` loop of
`process_conll_document` for the sentence at index `i`. -/
def insertRefs (m : List (Int × List (Nat × Int × Int))) (i : Nat)
    (refs : List (Int × Int × Int)) : List (Int × List (Nat × Int × Int)) :=
  refs.foldl (fun m r => dictAppend m r.1 (i, r.2.1, r.2.2)) m

/-- `process_conll_document`: group the sentences' references into clusters
keyed by entity id, drop the ids, and build the `Document`. -/
def process_conll_document (doc_id : PyStr) (sents : List Sentence) : Document :=
  let mentions := sents.enum.foldl (fun m p => insertRefs m p.1 p.2.references) []
  ⟨doc_id, sents.map Sentence.tokens, mentions.map Prod.snd⟩

/-- The `[process_conll_sentence(chunk) for chunk in chunks]` comprehension. -/
def processSegments : List (List PyStr) → Except String (List Sentence)
  | [] => Except.ok []
  | seg :: rest =>
    match process_conll_sentence seg with
    | Except.error e => Except.error e
    | Except.ok sent =>
      match processSegments rest with
      | Except.error e => Except.error e
      | Except.ok sents => Except.ok (sent :: sents)

/-- The `while has_more` loop of `read_conll_file`, with explicit fuel:
`none` means the fuel ran out (which provably never happens for fuel
`ls.length + 1`). -/
def read_conll_fileFuel : Nat → List PyStr → Option (Except String (List Document))
  | 0, _ => none
  | fuel + 1, ls =>
    match read_conll_document ls with
    | Except.error e => some (Except.error e)
    | Except.ok (none, _) => some (Except.ok [])
    | Except.ok (some (doc_id, chunks), rest) =>
      match processSegments chunks with
      | Except.error e => some (Except.error e)
      | Except.ok sents =>
        match read_conll_fileFuel fuel rest with
        | none => none
        | some (Except.error e) => some (Except.error e)
        | some (Except.ok docs) =>
          some (Except.ok (process_conll_document doc_id sents :: docs))

/-- `read_conll_file`: the full (finite) sequence of documents the generator
yields from the stream, or the first error raised while producing it. -/
def read_conll_file (ls : List PyStr) : Except String (List Document) :=
  (read_conll_fileFuel (ls.length + 1) ls).getD (Except.ok [])

/-! ## Specification-side definitions used to state the claims -/

/-- The chunk sequence starting at `ls` consists of zero or more segments
followed by an end-document marker; records the segment line lists and the
stream position after the end marker. -/
inductive SegsEnd : List PyStr → List (List PyStr) → List PyStr → Prop where
  | done : ∀ ls rest, read_conll_chunk ls = (ConllChunk.endDocument, rest) →
      SegsEnd ls [] rest
  | step : ∀ ls s rest segs rest2, read_conll_chunk ls = (ConllChunk.segment s, rest) →
      SegsEnd rest segs rest2 → SegsEnd ls (s :: segs) rest2

/-- The stream `ls` is a well-formed corpus: complete documents
(begin marker, segments, end marker) followed by end of input; records the
(doc_id, segment lines) pairs in stream order. -/
inductive DocsFrom : List PyStr → List (PyStr × List (List PyStr)) → Prop where
  | eof : ∀ ls rest, read_conll_chunk ls = (ConllChunk.endFile, rest) → DocsFrom ls []
  | doc : ∀ ls doc_id rest segs rest2 ds,
      read_conll_chunk ls = (ConllChunk.beginDocument doc_id, rest) →
      SegsEnd rest segs rest2 → DocsFrom rest2 ds → DocsFrom ls ((doc_id, segs) :: ds)

/-- The document grammar the assembler actually accepts at `ls`: either end
of input (the exhaustion sentinel), or one begin marker followed by zero or
more segments and one end marker. -/
def ConformingDoc (ls : List PyStr) : Prop :=
  (read_conll_chunk ls).1 = ConllChunk.endFile ∨
  ∃ doc_id rest segs rest2,
    read_conll_chunk ls = (ConllChunk.beginDocument doc_id, rest) ∧ SegsEnd rest segs rest2

/-- The word-position field of a line, as the decoder reads it
(`int(fields[2].strip())`). -/
def parseWordPos (l : PyStr) : Except String Int :=
  match pyIdx (pySplit l) 2 with
  | Except.error e => Except.error e
  | Except.ok f2 => parseInt (pyStrip f2)

/-- All reference triples of a document's sentences, tagged with the index of
their sentence: entries (entity, (sentence_index, start, stop)). -/
def docRefs (sents : List Sentence) : List (Int × Nat × Int × Int) :=
  (sents.enum.map (fun p => p.2.references.map (fun r => (r.1, p.1, r.2.1, r.2.2)))).flatten

/-- Append `e` to `ks` unless already present. -/
def insertKey (ks : List Int) (e : Int) : List Int :=
  if e ∈ ks then ks else ks ++ [e]

/-- The entity ids of `rs` in order of first occurrence. -/
def firstKeys {β : Type} (rs : List (Int × β)) : List Int :=
  rs.foldl (fun ks r => insertKey ks r.1) []

/-- The mentions collection as the spec describes it: for each entity id in
first-insertion order, the (sentence_index, start, stop) triples of exactly
that entity, with the id itself dropped. -/
def specMentions (sents : List Sentence) : List (List (Nat × Int × Int)) :=
  (firstKeys (docRefs sents)).map
    (fun e => ((docRefs sents).filter (fun r => r.1 == e)).map Prod.snd)

end Conll

namespace Conll

/-- A quick sanity example for the decoder on the spec's end-to-end input. -/
example :
    process_conll_sentence
      ["t 0 0 -LRB- - - - - - - (1".data, "t 0 1 -RRB- - - - - - - 1)".data] =
      Except.ok ⟨["(".data, ")".data], [(1, 0, 1)]⟩ := by decide

example :
    read_conll_chunk ["#begin document (test)".data, "a b".data] =
      (ConllChunk.beginDocument "(test)".data, ["a b".data]) := by decide

example :
    read_conll_document ["#begin document x".data, "a b 0 t -".data, "".data,
      "#end document".data] =
      Except.ok (some ("x".data, [["a b 0 t -".data]]), []) := by decide

example :
    read_conll_file ["#begin document x".data, "a b 0 t (3)".data, "".data,
      "#end document".data] =
      Except.ok [⟨"x".data, [["t".data]], [[(0, 0, 0)]]⟩] := by decide

/-! ## Stream-consumption lemmas -/

theorem gatherSegmentLines_length (ls : List PyStr) :
    (gatherSegmentLines ls).2.length ≤ ls.length := by
  induction ls with
  | nil => simp [gatherSegmentLines]
  | cons l rest ih =>
    simp only [gatherSegmentLines]
    by_cases h : pyStrip l = []
    · rw [if_pos h]; exact Nat.le_succ _
    · rw [if_neg h]; exact Nat.le_trans ih (Nat.le_succ _)

theorem read_conll_chunk_nil : read_conll_chunk [] = (ConllChunk.endFile, []) := rfl

theorem read_conll_chunk_cons_length (l : PyStr) (t : List PyStr) :
    (read_conll_chunk (l :: t)).2.length < (l :: t).length := by
  simp only [read_conll_chunk]
  by_cases h1 : pyStrip l = []
  · rw [if_pos h1]; exact Nat.lt_succ_self _
  rw [if_neg h1]
  by_cases h2 : pyStartsWith "#begin document".data l = true
  · rw [if_pos h2]; exact Nat.lt_succ_self _
  rw [if_neg h2]
  by_cases h3 : pyStartsWith "#end document".data l = true
  · rw [if_pos h3]; exact Nat.lt_succ_self _
  · rw [if_neg h3]
    exact Nat.lt_succ_of_le (gatherSegmentLines_length t)

theorem read_conll_chunk_length (ls : List PyStr) :
    (read_conll_chunk ls).2.length ≤ ls.length := by
  cases ls with
  | nil => simp [read_conll_chunk]
  | cons l t => exact Nat.le_of_lt (read_conll_chunk_cons_length l t)

/-- Any chunk other than end-of-file consumes at least one line. -/
theorem read_conll_chunk_consumes {ls : List PyStr} {c : ConllChunk} {rest : List PyStr}
    (h : read_conll_chunk ls = (c, rest)) (hc : c ≠ ConllChunk.endFile) :
    rest.length < ls.length := by
  cases ls with
  | nil =>
    rw [read_conll_chunk_nil] at h
    simp only [Prod.mk.injEq] at h
    exact absurd h.1.symm hc
  | cons l t =>
    have := read_conll_chunk_cons_length l t
    rw [h] at this
    exact this

theorem readSegmentsFuel_length (fuel : Nat) :
    ∀ ls : List PyStr, (readSegmentsFuel fuel ls).2.2.length ≤ ls.length := by
  induction fuel with
  | zero => intro ls; simp [readSegmentsFuel]
  | succ fuel ih =>
    intro ls
    simp only [readSegmentsFuel]
    rcases hc : read_conll_chunk ls with ⟨c, rest⟩
    have hrest : rest.length ≤ ls.length := by
      have := read_conll_chunk_length ls
      rw [hc] at this
      exact this
    cases c with
    | segment s =>
      simp only
      exact Nat.le_trans (ih rest) hrest
    | beginDocument d => simpa using hrest
    | endDocument => simpa using hrest
    | endFile => simpa using hrest

/-! ## Correspondence between `SegsEnd` and the segment-collecting loop -/

theorem SegsEnd_readSegmentsFuel {ls : List PyStr} {segs : List (List PyStr)} {rest : List PyStr}
    (h : SegsEnd ls segs rest) :
    ∀ fuel, ls.length < fuel →
      readSegmentsFuel fuel ls = (segs, ConllChunk.endDocument, rest) := by
  induction h with
  | done ls rest hc =>
    intro fuel hf
    cases fuel with
    | zero => omega
    | succ fuel => simp [readSegmentsFuel, hc]
  | step ls s rest segs rest2 hc _ ih =>
    intro fuel hf
    cases fuel with
    | zero => omega
    | succ fuel =>
      have hlen := read_conll_chunk_consumes hc (by simp)
      have hr := ih fuel (by omega)
      simp [readSegmentsFuel, hc, hr]

theorem readSegmentsFuel_SegsEnd :
    ∀ (fuel : Nat) (ls : List PyStr) (segs : List (List PyStr)) (rest : List PyStr),
      ls.length < fuel → readSegmentsFuel fuel ls = (segs, ConllChunk.endDocument, rest) →
      SegsEnd ls segs rest := by
  intro fuel
  induction fuel with
  | zero => intro ls segs rest h; omega
  | succ fuel ih =>
    intro ls segs rest hf h
    simp only [readSegmentsFuel] at h
    rcases hc : read_conll_chunk ls with ⟨c, r⟩
    rw [hc] at h
    cases c with
    | segment s =>
      dsimp only at h
      rcases hrs : readSegmentsFuel fuel r with ⟨segs2, c2, rest2⟩
      rw [hrs] at h
      simp only [Prod.mk.injEq] at h
      obtain ⟨h1, h2, h3⟩ := h
      subst h1; subst h2; subst h3
      have hlen := read_conll_chunk_consumes hc (by simp)
      exact SegsEnd.step ls s r segs2 rest2 hc (ih r segs2 rest2 (by omega) hrs)
    | beginDocument d => simp at h
    | endDocument =>
      simp only [Prod.mk.injEq] at h
      obtain ⟨h1, _, h3⟩ := h
      subst h1; subst h3
      exact SegsEnd.done ls r hc
    | endFile => simp at h

theorem SegsEnd_length {ls : List PyStr} {segs : List (List PyStr)} {rest : List PyStr}
    (h : SegsEnd ls segs rest) : rest.length ≤ ls.length := by
  induction h with
  | done ls rest hc => exact Nat.le_of_lt (read_conll_chunk_consumes hc (by simp))
  | step ls s rest segs rest2 hc _ ih =>
    exact Nat.le_trans ih (Nat.le_of_lt (read_conll_chunk_consumes hc (by simp)))

/-! ## `read_conll_document` facts -/

theorem read_conll_document_ok {ls : List PyStr} {doc_id : PyStr} {rest : List PyStr}
    {segs : List (List PyStr)} {rest2 : List PyStr}
    (hb : read_conll_chunk ls = (ConllChunk.beginDocument doc_id, rest))
    (hs : SegsEnd rest segs rest2) :
    read_conll_document ls = Except.ok (some (doc_id, segs), rest2) := by
  have hr : readSegments rest = (segs, ConllChunk.endDocument, rest2) :=
    SegsEnd_readSegmentsFuel hs (rest.length + 1) (Nat.lt_succ_self _)
  simp [read_conll_document, hb, readSegments] at hr ⊢
  rw [hr]

theorem read_conll_document_some_length {ls : List PyStr}
    {x : PyStr × List (List PyStr)} {rest : List PyStr}
    (h : read_conll_document ls = Except.ok (some x, rest)) : rest.length < ls.length := by
  unfold read_conll_document at h
  rcases hc : read_conll_chunk ls with ⟨c, r⟩
  rw [hc] at h
  cases c with
  | beginDocument d =>
    dsimp only at h
    rcases hrs : readSegments r with ⟨segs, c2, rest2⟩
    rw [hrs] at h
    cases c2 with
    | endDocument =>
      simp only [Except.ok.injEq, Prod.mk.injEq] at h
      have hlen2 : rest2.length ≤ r.length := by
        have h5 := readSegmentsFuel_length (r.length + 1) r
        unfold readSegments at hrs
        rw [hrs] at h5
        exact h5
      have hlen1 := read_conll_chunk_consumes hc (by simp)
      have hr2 : rest = rest2 := h.2.symm
      rw [hr2]
      omega
    | beginDocument d2 => simp at h
    | endFile => simp at h
    | segment s2 => simp at h
  | endDocument => simp at h
  | endFile => simp at h
  | segment s => simp at h

/-! ## `read_conll_file` facts -/

theorem read_conll_fileFuel_isSome :
    ∀ (fuel : Nat) (ls : List PyStr), ls.length < fuel →
      (read_conll_fileFuel fuel ls).isSome = true := by
  intro fuel
  induction fuel with
  | zero => intro ls h; omega
  | succ fuel ih =>
    intro ls hf
    rcases hd : read_conll_document ls with e | ⟨od, rest⟩
    · simp [read_conll_fileFuel, hd]
    · rcases od with _ | ⟨doc_id, chunks⟩
      · simp [read_conll_fileFuel, hd]
      · rcases hp : processSegments chunks with e | sents
        · simp [read_conll_fileFuel, hd, hp]
        · have hlen := read_conll_document_some_length hd
          have hsome := ih rest (by omega)
          rcases ho : read_conll_fileFuel fuel rest with _ | r2
          · rw [ho] at hsome; simp at hsome
          · rcases r2 with e2 | docs
            · simp [read_conll_fileFuel, hd, hp, ho]
            · simp [read_conll_fileFuel, hd, hp, ho]

theorem DocsFrom_read_conll_fileFuel :
    ∀ (fuel : Nat) (ls : List PyStr) (ds : List (PyStr × List (List PyStr))),
      DocsFrom ls ds → ls.length < fuel →
      (∀ p ∈ ds, ∃ sents, processSegments p.2 = Except.ok sents) →
      ∃ docs, read_conll_fileFuel fuel ls = some (Except.ok docs) ∧
        List.Forall₂ (fun (d : Document) (p : PyStr × List (List PyStr)) =>
          ∃ sents, processSegments p.2 = Except.ok sents ∧
            d = process_conll_document p.1 sents) docs ds := by
  intro fuel ls ds h
  induction h generalizing fuel with
  | eof ls rest hc =>
    intro hf _
    cases fuel with
    | zero => omega
    | succ fuel =>
      refine ⟨[], ?_, List.Forall₂.nil⟩
      have hd : read_conll_document ls = Except.ok (none, rest) := by
        unfold read_conll_document
        rw [hc]
      simp [read_conll_fileFuel, hd]
  | doc ls doc_id rest segs rest2 ds hb hs _ ih =>
    intro hf hdec
    cases fuel with
    | zero => omega
    | succ fuel =>
      have hd := read_conll_document_ok hb hs
      obtain ⟨sents, hsents⟩ := hdec (doc_id, segs) (List.mem_cons_self _ _)
      have hlen : rest2.length < ls.length := read_conll_document_some_length hd
      obtain ⟨docs, hdocs2, hfa⟩ :=
        ih fuel (by omega) (fun p hp => hdec p (List.mem_cons_of_mem _ hp))
      refine ⟨process_conll_document doc_id sents :: docs, ?_, ?_⟩
      · simp [read_conll_fileFuel, hd, hsents, hdocs2]
      · exact List.Forall₂.cons ⟨sents, hsents, rfl⟩ hfa

/-! ## Decoder step lemmas -/

theorem processLines_append (ls1 ls2 : List PyStr) :
    ∀ st : DecState, processLines st (ls1 ++ ls2) =
      match processLines st ls1 with
      | Except.error e => Except.error e
      | Except.ok st2 => processLines st2 ls2 := by
  induction ls1 with
  | nil => intro st; simp [processLines]
  | cons l t ih =>
    intro st
    simp only [List.cons_append, processLines]
    rcases h : processLine st l with e | st2
    · simp
    · simp [ih]

theorem processCodes_append (w : Int) (cs1 cs2 : List PyStr) :
    ∀ acc, processCodes w acc (cs1 ++ cs2) =
      match processCodes w acc cs1 with
      | Except.error e => Except.error e
      | Except.ok acc2 => processCodes w acc2 cs2 := by
  induction cs1 with
  | nil => intro acc; simp [processCodes]
  | cons c t ih =>
    intro acc
    simp only [List.cons_append, processCodes]
    rcases h : processCode w acc c with e | acc2
    · simp
    · simp [ih]

/-- A code of shape `(N)`: immediate span, no open-list change. -/
theorem processCode_immediate {N w : Int} {c : PyStr}
    (h1 : pyStartsWith "(".data c = true) (h2 : pyEndsWith ")".data c = true)
    (h3 : parseInt ((c.drop 1).dropLast) = Except.ok N)
    (open_list : List (Int × Int)) (spans : List (Int × Int × Int)) :
    processCode w (open_list, spans) c = Except.ok (open_list, spans ++ [(N, w, w)]) := by
  have h3t : parseInt c.tail.dropLast = Except.ok N := by rwa [List.drop_one] at h3
  simp [processCode, h1, h2, h3, h3t]

/-- A code of shape `(N`: prepend to the open list. -/
theorem processCode_open {N w : Int} {c : PyStr}
    (h1 : pyStartsWith "(".data c = true) (h2 : pyEndsWith ")".data c = false)
    (h3 : parseInt (c.drop 1) = Except.ok N)
    (open_list : List (Int × Int)) (spans : List (Int × Int × Int)) :
    processCode w (open_list, spans) c = Except.ok ((N, w) :: open_list, spans) := by
  have h3t : parseInt c.tail = Except.ok N := by rwa [List.drop_one] at h3
  simp [processCode, h1, h2, h3, h3t]

/-- A code with neither bracket shape is skipped, leaving the state as it is. -/
theorem processCode_skip {w : Int} {c : PyStr}
    (h1 : pyStartsWith "(".data c = false) (h2 : pyEndsWith ")".data c = false)
    (acc : List (Int × Int) × List (Int × Int × Int)) :
    processCode w acc c = Except.ok acc := by
  rcases acc with ⟨o, s⟩
  simp [processCode, h1, h2]

theorem find?_entity_append {N : Int} {l1 : List (Int × Int)} (p2 : Int)
    (rest : List (Int × Int)) (h : ∀ q ∈ l1, q.1 ≠ N) :
    (l1 ++ (N, p2) :: rest).find? (fun x => x.1 == N) = some (N, p2) := by
  induction l1 with
  | nil =>
    simp only [List.nil_append]
    exact List.find?_cons_of_pos _ (by simp)
  | cons q l1 ih =>
    have hq : ((fun x : Int × Int => x.1 == N) q) = false := by
      simp [h q (List.mem_cons_self q l1)]
    simp only [List.cons_append]
    rw [List.find?_cons_of_neg _ (by simp [hq])]
    exact ih (fun q' hq' => h q' (List.mem_cons_of_mem _ hq'))

/-- A code of shape `N)` whose id has an open entry: the close is matched to
the FIRST open-list entry with that id, which is emitted and removed. -/
theorem processCode_close {N w : Int} {c : PyStr}
    (h1 : pyStartsWith "(".data c = false) (h2 : pyEndsWith ")".data c = true)
    (h3 : parseInt c.dropLast = Except.ok N)
    {l1 : List (Int × Int)} (hl1 : ∀ q ∈ l1, q.1 ≠ N) (p2 : Int) (rest : List (Int × Int))
    (spans : List (Int × Int × Int)) :
    processCode w (l1 ++ (N, p2) :: rest, spans) c =
      Except.ok (l1 ++ rest, spans ++ [(N, p2, w)]) := by
  have hfind := find?_entity_append (N := N) p2 rest hl1
  have hmem : (N, p2) ∉ l1 := fun hmem => (hl1 _ hmem) rfl
  simp only [processCode, h1, h2, h3, Bool.false_and, Bool.false_eq_true, if_false]
  rw [hfind]
  simp [List.erase_append_right _ hmem]

/-- A code of shape `N)` with no open entry for `N` raises `StopIteration`. -/
theorem processCode_unmatched {N w : Int} {c : PyStr}
    (h1 : pyStartsWith "(".data c = false) (h2 : pyEndsWith ")".data c = true)
    (h3 : parseInt c.dropLast = Except.ok N)
    {o : List (Int × Int)} (ho : ∀ q ∈ o, q.1 ≠ N) (spans : List (Int × Int × Int)) :
    processCode w (o, spans) c = Except.error "StopIteration" := by
  have hfind : o.find? (fun x : Int × Int => x.1 == N) = none :=
    List.find?_eq_none.mpr (fun x hx => by simp [ho x hx])
  simp only [processCode, h1, h2, h3, Bool.false_and, Bool.false_eq_true, if_false]
  rw [hfind]
  simp

/-! ## Grouping lemmas for the mentions dictionary -/

theorem insertKey_mem {ks : List Int} {e x : Int} :
    x ∈ insertKey ks e ↔ x ∈ ks ∨ x = e := by
  unfold insertKey
  by_cases h : e ∈ ks
  · rw [if_pos h]
    constructor
    · exact fun hx => Or.inl hx
    · rintro (hx | rfl)
      · exact hx
      · exact h
  · rw [if_neg h]
    simp

theorem insertKey_nodup {ks : List Int} (e : Int) (h : ks.Nodup) : (insertKey ks e).Nodup := by
  unfold insertKey
  by_cases he : e ∈ ks
  · rwa [if_pos he]
  · rw [if_neg he]
    simp [List.nodup_append, h, he]

theorem firstKeys_aux_mem {β : Type} :
    ∀ (rs : List (Int × β)) (ks : List Int) (x : Int),
      x ∈ rs.foldl (fun ks r => insertKey ks r.1) ks ↔ x ∈ ks ∨ ∃ r ∈ rs, r.1 = x := by
  intro rs
  induction rs with
  | nil => simp
  | cons r rs ih =>
    intro ks x
    simp only [List.foldl_cons]
    rw [ih, insertKey_mem]
    constructor
    · rintro ((hx | rfl) | ⟨r2, hr2, hx⟩)
      · exact Or.inl hx
      · exact Or.inr ⟨r, List.mem_cons_self r rs, rfl⟩
      · exact Or.inr ⟨r2, List.mem_cons_of_mem r hr2, hx⟩
    · rintro (hx | ⟨r2, hr2, hx⟩)
      · exact Or.inl (Or.inl hx)
      · rcases List.mem_cons.mp hr2 with rfl | hmem
        · exact Or.inl (Or.inr hx.symm)
        · exact Or.inr ⟨r2, hmem, hx⟩

theorem firstKeys_mem {β : Type} (rs : List (Int × β)) (x : Int) :
    x ∈ firstKeys rs ↔ ∃ r ∈ rs, r.1 = x := by
  unfold firstKeys
  rw [firstKeys_aux_mem]
  simp

theorem firstKeys_nodup {β : Type} (rs : List (Int × β)) : (firstKeys rs).Nodup := by
  unfold firstKeys
  have haux : ∀ (rs2 : List (Int × β)) (ks : List Int), ks.Nodup →
      (rs2.foldl (fun ks r => insertKey ks r.1) ks).Nodup := by
    intro rs2
    induction rs2 with
    | nil => intro ks h; exact h
    | cons r rs2 ih => intro ks h; exact ih _ (insertKey_nodup _ h)
  exact haux rs [] List.nodup_nil

theorem firstKeys_append {β : Type} (rs : List (Int × β)) (r : Int × β) :
    firstKeys (rs ++ [r]) = insertKey (firstKeys rs) r.1 := by
  unfold firstKeys
  rw [List.foldl_append]
  simp

theorem dictAppend_absent {β : Type} :
    ∀ (ks : List Int) (F : Int → List β) (e : Int) (v : β), e ∉ ks →
      dictAppend (ks.map (fun k => (k, F k))) e v =
        ks.map (fun k => (k, F k)) ++ [(e, [v])] := by
  intro ks
  induction ks with
  | nil => intro F e v _; simp [dictAppend]
  | cons k ks ih =>
    intro F e v h
    have hk : ¬(k = e) := fun hh => h (hh ▸ List.mem_cons_self k ks)
    simp only [List.map_cons, dictAppend, if_neg hk]
    rw [ih F e v (fun hh => h (List.mem_cons_of_mem _ hh))]
    simp

theorem dictAppend_present {β : Type} :
    ∀ (ks : List Int) (F : Int → List β) (e : Int) (v : β), ks.Nodup → e ∈ ks →
      dictAppend (ks.map (fun k => (k, F k))) e v =
        ks.map (fun k => (k, if k = e then F k ++ [v] else F k)) := by
  intro ks
  induction ks with
  | nil => intro F e v _ he; simp at he
  | cons k ks ih =>
    intro F e v hnd he
    rcases List.nodup_cons.mp hnd with ⟨hk_not_mem, hnd2⟩
    by_cases hk : k = e
    · subst hk
      simp only [List.map_cons, dictAppend, eq_self_iff_true, ite_true]
      congr 1
      apply List.map_congr_left
      intro a ha
      have hne : ¬(a = k) := fun hh => hk_not_mem (hh ▸ ha)
      simp [hne]
    · have he2 : e ∈ ks := by
        rcases List.mem_cons.mp he with rfl | hmem
        · exact absurd rfl hk
        · exact hmem
      simp only [List.map_cons, dictAppend, if_neg hk]
      rw [ih F e v hnd2 he2]

theorem foldl_dictAppend_groups {β : Type} :
    ∀ rs : List (Int × β),
      rs.foldl (fun m r => dictAppend m r.1 r.2) [] =
        (firstKeys rs).map
          (fun e => (e, (rs.filter (fun r2 => r2.1 == e)).map Prod.snd)) := by
  intro rs
  induction rs using List.reverseRecOn with
  | nil => simp [firstKeys]
  | append_singleton rs r ih =>
    rw [List.foldl_append]
    simp only [List.foldl_cons, List.foldl_nil]
    rw [ih, firstKeys_append]
    by_cases he : r.1 ∈ firstKeys rs
    · rw [insertKey, if_pos he]
      rw [dictAppend_present _ _ _ _ (firstKeys_nodup rs) he]
      apply List.map_congr_left
      intro k _
      rw [List.filter_append]
      by_cases hk : k = r.1
      · subst hk
        rw [if_pos rfl]
        simp
      · rw [if_neg hk]
        have : (r.1 == k) = false := by
          simp only [beq_eq_false_iff_ne, ne_eq]
          exact fun hh => hk hh.symm
        simp [this]
    · rw [insertKey, if_neg he]
      rw [dictAppend_absent _ _ _ _ he]
      rw [List.map_append]
      congr 1
      · apply List.map_congr_left
        intro k hk
        have hne : (r.1 == k) = false := by
          simp only [beq_eq_false_iff_ne, ne_eq]
          intro hh
          exact he (hh ▸ hk)
        rw [List.filter_append]
        simp [hne]
      · have hfil : rs.filter (fun r2 => r2.1 == r.1) = [] := by
          rw [List.filter_eq_nil_iff]
          intro a ha
          simp only [beq_iff_eq]
          intro hh
          exact he ((firstKeys_mem rs r.1).mpr ⟨a, ha, hh⟩)
        simp only [List.map_cons, List.map_nil]
        rw [List.filter_append, hfil]
        simp

/-- The nested per-sentence/per-reference loop of `process_conll_document`
is the single dictionary fold over the flattened, index-tagged triples. -/
theorem mentions_foldl_docRefs (sents : List Sentence) :
    sents.enum.foldl (fun m p => insertRefs m p.1 p.2.references) [] =
      (docRefs sents).foldl (fun m r => dictAppend m r.1 r.2) [] := by
  unfold docRefs
  rw [List.foldl_flatten, List.foldl_map]
  simp only [insertRefs]
  congr 1
  funext m p
  rw [List.foldl_map]

/-! ## Position-bound invariants of the decoder -/

theorem processCode_bounds {w : Int} {o : List (Int × Int)} {s : List (Int × Int × Int)}
    {c : PyStr} {o2 : List (Int × Int)} {s2 : List (Int × Int × Int)}
    (hw : 0 ≤ w)
    (ho : ∀ q ∈ o, 0 ≤ q.2 ∧ q.2 ≤ w)
    (hs : ∀ r ∈ s, 0 ≤ r.2.1 ∧ r.2.1 ≤ r.2.2 ∧ r.2.2 ≤ w)
    (h : processCode w (o, s) c = Except.ok (o2, s2)) :
    (∀ q ∈ o2, 0 ≤ q.2 ∧ q.2 ≤ w) ∧
    (∀ r ∈ s2, 0 ≤ r.2.1 ∧ r.2.1 ≤ r.2.2 ∧ r.2.2 ≤ w) := by
  unfold processCode at h
  dsimp only at h
  by_cases h1 : (pyStartsWith "(".data c && pyEndsWith ")".data c) = true
  · rw [if_pos h1] at h
    rcases hp : parseInt ((c.drop 1).dropLast) with e | N <;> rw [hp] at h
    · simp at h
    · simp only [Except.ok.injEq, Prod.mk.injEq] at h
      obtain ⟨ho2, hs2⟩ := h
      subst ho2; subst hs2
      refine ⟨ho, ?_⟩
      intro r hr
      rcases List.mem_append.mp hr with hr | hr
      · exact hs r hr
      · simp only [List.mem_singleton] at hr
        subst hr
        exact ⟨hw, le_refl w, le_refl w⟩
  · rw [if_neg h1] at h
    by_cases h2 : pyStartsWith "(".data c = true
    · rw [if_pos h2] at h
      rcases hp : parseInt (c.drop 1) with e | N <;> rw [hp] at h
      · simp at h
      · simp only [Except.ok.injEq, Prod.mk.injEq] at h
        obtain ⟨ho2, hs2⟩ := h
        subst ho2; subst hs2
        refine ⟨?_, hs⟩
        intro q hq
        rcases List.mem_cons.mp hq with rfl | hq
        · exact ⟨hw, le_refl w⟩
        · exact ho q hq
    · rw [if_neg h2] at h
      by_cases h3 : pyEndsWith ")".data c = true
      · rw [if_pos h3] at h
        rcases hp : parseInt c.dropLast with e | N <;> rw [hp] at h
        · simp at h
        · dsimp only at h
          rcases hf : o.find? (fun x => x.1 == N) with _ | q <;> rw [hf] at h
          · simp at h
          · dsimp only at h
            simp only [Except.ok.injEq, Prod.mk.injEq] at h
            obtain ⟨ho2, hs2⟩ := h
            subst ho2; subst hs2
            have hq_mem : q ∈ o := List.mem_of_find?_eq_some hf
            have hq_bounds := ho q hq_mem
            refine ⟨?_, ?_⟩
            · intro q2 hq2
              exact ho q2 (List.mem_of_mem_erase hq2)
            · intro r hr
              rcases List.mem_append.mp hr with hr | hr
              · exact hs r hr
              · simp only [List.mem_singleton] at hr
                subst hr
                exact ⟨hq_bounds.1, hq_bounds.2, le_refl w⟩
      · rw [if_neg h3] at h
        simp only [Except.ok.injEq, Prod.mk.injEq] at h
        obtain ⟨ho2, hs2⟩ := h
        subst ho2; subst hs2
        exact ⟨ho, hs⟩

theorem processCodes_bounds {w : Int} :
    ∀ (cs : List PyStr) (o : List (Int × Int)) (s : List (Int × Int × Int))
      (o2 : List (Int × Int)) (s2 : List (Int × Int × Int)),
      0 ≤ w →
      (∀ q ∈ o, 0 ≤ q.2 ∧ q.2 ≤ w) →
      (∀ r ∈ s, 0 ≤ r.2.1 ∧ r.2.1 ≤ r.2.2 ∧ r.2.2 ≤ w) →
      processCodes w (o, s) cs = Except.ok (o2, s2) →
      (∀ q ∈ o2, 0 ≤ q.2 ∧ q.2 ≤ w) ∧
      (∀ r ∈ s2, 0 ≤ r.2.1 ∧ r.2.1 ≤ r.2.2 ∧ r.2.2 ≤ w) := by
  intro cs
  induction cs with
  | nil =>
    intro o s o2 s2 _ ho hs h
    simp only [processCodes, Except.ok.injEq, Prod.mk.injEq] at h
    obtain ⟨h1, h2⟩ := h
    subst h1; subst h2
    exact ⟨ho, hs⟩
  | cons c cs ih =>
    intro o s o2 s2 hw ho hs h
    simp only [processCodes] at h
    rcases hc : processCode w (o, s) c with e | acc2 <;> rw [hc] at h
    · simp at h
    · rcases acc2 with ⟨om, sm⟩
      dsimp only at h
      obtain ⟨hom, hsm⟩ := processCode_bounds hw ho hs hc
      exact ih om sm o2 s2 hw hom hsm h

theorem processLine_bounds {st : DecState} {l : PyStr} {st2 : DecState}
    (hwp : parseWordPos l = Except.ok (st.tokens.length : Int))
    (ho : ∀ q ∈ st.open_list, 0 ≤ q.2 ∧ q.2 < (st.tokens.length : Int))
    (hs : ∀ r ∈ st.spans, 0 ≤ r.2.1 ∧ r.2.1 ≤ r.2.2 ∧ r.2.2 < (st.tokens.length : Int))
    (h : processLine st l = Except.ok st2) :
    st2.tokens.length = st.tokens.length + 1 ∧
    (∀ q ∈ st2.open_list, 0 ≤ q.2 ∧ q.2 < (st2.tokens.length : Int)) ∧
    (∀ r ∈ st2.spans, 0 ≤ r.2.1 ∧ r.2.1 ≤ r.2.2 ∧ r.2.2 < (st2.tokens.length : Int)) := by
  unfold processLine at h
  unfold parseWordPos at hwp
  dsimp only at h
  rcases hf2 : pyIdx (pySplit l) 2 with e | f2 <;> rw [hf2] at h hwp
  · simp at hwp
  dsimp only at h hwp
  rcases hpw : parseInt (pyStrip f2) with e | w <;> rw [hpw] at h hwp
  · simp at hwp
  dsimp only at h hwp
  have hw_eq : w = (st.tokens.length : Int) := by simpa using hwp
  subst hw_eq
  rcases hfl : pyLast (pySplit l) with e | flast <;> rw [hfl] at h
  · simp at h
  dsimp only at h
  rcases hpc : processCodes (st.tokens.length : Int) (st.open_list, st.spans)
      (pySplitBar (pyStrip flast)) with e | acc2 <;> rw [hpc] at h
  · simp at h
  rcases acc2 with ⟨o2, s2⟩
  dsimp only at h
  rcases hf3 : pyIdx (pySplit l) 3 with e | f3 <;> rw [hf3] at h
  · simp at h
  dsimp only at h
  have hst2 : st2 = ⟨st.tokens ++ [pyStrip f3], o2, s2⟩ := by
    have := h
    simp only [Except.ok.injEq] at this
    exact this.symm
  subst hst2
  have hcast : (0 : Int) ≤ (st.tokens.length : Int) := Int.ofNat_nonneg _
  obtain ⟨ho2, hs2⟩ := processCodes_bounds (pySplitBar (pyStrip flast))
    st.open_list st.spans o2 s2 hcast
    (fun q hq => ⟨(ho q hq).1, le_of_lt (ho q hq).2⟩)
    (fun r hr => ⟨(hs r hr).1, (hs r hr).2.1, le_of_lt (hs r hr).2.2⟩) hpc
  refine ⟨by simp, ?_, ?_⟩
  · intro q hq
    obtain ⟨hq1, hq2⟩ := ho2 q hq
    refine ⟨hq1, ?_⟩
    simp only [List.length_append, List.length_singleton]
    push_cast
    omega
  · intro r hr
    obtain ⟨hr1, hr2, hr3⟩ := hs2 r hr
    refine ⟨hr1, hr2, ?_⟩
    simp only [List.length_append, List.length_singleton]
    push_cast
    omega

theorem processLines_bounds :
    ∀ (lines : List PyStr) (st : DecState) (st2 : DecState),
      (∀ i (hi : i < lines.length),
        parseWordPos (lines.get ⟨i, hi⟩) = Except.ok ((st.tokens.length + i : Nat) : Int)) →
      (∀ q ∈ st.open_list, 0 ≤ q.2 ∧ q.2 < (st.tokens.length : Int)) →
      (∀ r ∈ st.spans, 0 ≤ r.2.1 ∧ r.2.1 ≤ r.2.2 ∧ r.2.2 < (st.tokens.length : Int)) →
      processLines st lines = Except.ok st2 →
      st2.tokens.length = st.tokens.length + lines.length ∧
      (∀ r ∈ st2.spans, 0 ≤ r.2.1 ∧ r.2.1 ≤ r.2.2 ∧ r.2.2 < (st2.tokens.length : Int)) := by
  intro lines
  induction lines with
  | nil =>
    intro st st2 _ _ hs h
    simp only [processLines, Except.ok.injEq] at h
    subst h
    exact ⟨by simp, hs⟩
  | cons l ls ih =>
    intro st st2 hidx ho hs h
    simp only [processLines] at h
    rcases hl : processLine st l with e | stm <;> rw [hl] at h
    · simp at h
    dsimp only at h
    have hwp : parseWordPos l = Except.ok ((st.tokens.length : Nat) : Int) := by
      have h0 := hidx 0 (by simp)
      simpa using h0
    obtain ⟨hlen, hom, hsm⟩ := processLine_bounds hwp ho hs hl
    have hidx2 : ∀ i (hi : i < ls.length),
        parseWordPos (ls.get ⟨i, hi⟩) = Except.ok ((stm.tokens.length + i : Nat) : Int) := by
      intro i hi
      have h0 := hidx (i + 1) (by simpa using Nat.succ_lt_succ hi)
      have harith : stm.tokens.length + i = st.tokens.length + (i + 1) := by omega
      rw [harith]
      exact h0
    obtain ⟨hlen2, hs2⟩ := ih stm st2 hidx2 hom hsm h
    exact ⟨by rw [hlen2, hlen, List.length_cons]; omega, hs2⟩

/-! ## Bracket-free codes leave the state unchanged -/

theorem processCodes_skip {w : Int} :
    ∀ (cs : List PyStr),
      (∀ c ∈ cs, pyStartsWith "(".data c = false ∧ pyEndsWith ")".data c = false) →
      ∀ acc, processCodes w acc cs = Except.ok acc := by
  intro cs
  induction cs with
  | nil => intro _ acc; rfl
  | cons c cs ih =>
    intro h acc
    obtain ⟨h1, h2⟩ := h c (List.mem_cons_self c cs)
    simp only [processCodes, processCode_skip h1 h2]
    exact ih (fun c2 hc2 => h c2 (List.mem_cons_of_mem _ hc2)) acc

theorem processLines_no_brackets :
    ∀ (lines : List PyStr) (st : DecState),
      (∀ l ∈ lines, ∃ f2 w f3 flast,
        pyIdx (pySplit l) 2 = Except.ok f2 ∧ parseInt (pyStrip f2) = Except.ok w ∧
        pyIdx (pySplit l) 3 = Except.ok f3 ∧ pyLast (pySplit l) = Except.ok flast ∧
        ∀ c ∈ pySplitBar (pyStrip flast),
          pyStartsWith "(".data c = false ∧ pyEndsWith ")".data c = false) →
      ∃ toks, processLines st lines =
        Except.ok ⟨st.tokens ++ toks, st.open_list, st.spans⟩ ∧ toks.length = lines.length := by
  intro lines
  induction lines with
  | nil => intro st _; exact ⟨[], by simp [processLines], rfl⟩
  | cons l ls ih =>
    intro st hl
    obtain ⟨f2, w, f3, flast, h2, hw, h3, hlast, hcodes⟩ := hl l (List.mem_cons_self l ls)
    have hline : processLine st l =
        Except.ok ⟨st.tokens ++ [pyStrip f3], st.open_list, st.spans⟩ := by
      unfold processLine
      dsimp only
      rw [h2]
      dsimp only
      rw [hw]
      dsimp only
      rw [hlast]
      dsimp only
      rw [processCodes_skip _ hcodes _]
      dsimp only
      rw [h3]
    obtain ⟨toks, hrec, hlen⟩ :=
      ih ⟨st.tokens ++ [pyStrip f3], st.open_list, st.spans⟩
        (fun l2 hl2 => hl l2 (List.mem_cons_of_mem _ hl2))
    refine ⟨pyStrip f3 :: toks, ?_, by simp [hlen]⟩
    simp only [processLines, hline]
    rw [hrec]
    simp

/-! ## Claims -/

/-- C1 counterexample: a segment that leaves entity 7 open decodes WITHOUT
any failure; the returned sentence's references silently omit the unclosed
span (the claim says this must raise an unterminated-span hard failure). -/
theorem c1_counterexample :
    process_conll_sentence ["d p 0 tok (7".data] =
      Except.ok ⟨["tok".data], []⟩ := by decide

/-- C1 amended: when the line loop ends with entries still in the open-span
list, `process_conll_sentence` raises nothing; it returns the sentence built
from the accumulated tokens and the emitted spans only, so unclosed spans are
silently dropped. -/
theorem c1_unterminated_spans_dropped (lines : List PyStr) (st : DecState)
    (h : processLines ⟨[], [], []⟩ lines = Except.ok st)
    (hopen : st.open_list ≠ []) :
    process_conll_sentence lines = Except.ok (Sentence.make st.tokens st.spans) := by
  unfold process_conll_sentence
  rw [h]

/-- C1 witness for the amended theorem. -/
theorem c1_witness :
    process_conll_sentence ["d p 0 tok (7".data] =
      Except.ok (Sentence.make ["tok".data] []) := by
  have h : processLines ⟨[], [], []⟩ ["d p 0 tok (7".data] =
      Except.ok ⟨["tok".data], [(7, 0)], []⟩ := by decide
  exact c1_unterminated_spans_dropped _ _ h (by decide)

/-- C2: after two opens for the same entity id at positions p1 then p2, a
close code for that id matches the most recently opened entry: the emitted
span is (N, p2, p), and (N, p1) remains in the open-span list. -/
theorem c2_lifo_close (N p1 p2 p : Int) (L : List (Int × Int))
    (spans : List (Int × Int × Int)) (o1 o2 c : PyStr)
    (ho1s : pyStartsWith "(".data o1 = true) (ho1e : pyEndsWith ")".data o1 = false)
    (ho1p : parseInt (o1.drop 1) = Except.ok N)
    (ho2s : pyStartsWith "(".data o2 = true) (ho2e : pyEndsWith ")".data o2 = false)
    (ho2p : parseInt (o2.drop 1) = Except.ok N)
    (hcs : pyStartsWith "(".data c = false) (hce : pyEndsWith ")".data c = true)
    (hcp : parseInt c.dropLast = Except.ok N)
    (hL : ∀ q ∈ L, q.1 ≠ N) :
    processCode p1 (L, spans) o1 = Except.ok ((N, p1) :: L, spans) ∧
    processCode p2 ((N, p1) :: L, spans) o2 =
      Except.ok ((N, p2) :: (N, p1) :: L, spans) ∧
    ∀ l1, (∀ q ∈ l1, q.1 ≠ N) →
      processCode p (l1 ++ (N, p2) :: (N, p1) :: L, spans) c =
        Except.ok (l1 ++ (N, p1) :: L, spans ++ [(N, p2, p)]) := by
  refine ⟨processCode_open ho1s ho1e ho1p L spans,
    processCode_open ho2s ho2e ho2p _ spans, ?_⟩
  intro l1 hl1
  exact processCode_close hcs hce hcp hl1 p2 ((N, p1) :: L) spans

/-- C2 witness: with opens of entity 5 at positions 0 then 1, the close at
position 2 emits (5, 1, 2) and keeps (5, 0) open. -/
theorem c2_witness :
    processCode 2 ([(5, 1), (5, 0)], []) "5)".data =
      Except.ok ([(5, 0)], [(5, 1, 2)]) := by
  have h := c2_lifo_close 5 0 1 2 [] [] "(5".data "(5".data "5)".data
    (by decide) (by decide) (by decide) (by decide) (by decide) (by decide)
    (by decide) (by decide) (by decide) (by simp)
  have h3 := h.2.2 [] (by simp)
  simpa using h3

/-- C3 counterexample: a document with ZERO segments (begin immediately
followed by end) is ACCEPTED by `read_conll_document`, although the claim
calls it a grammar violation that must raise. -/
theorem c3_counterexample :
    read_conll_document ["#begin document x".data, "#end document".data] =
      Except.ok (some ("x".data, []), []) := by decide

/-- C3 amended: `read_conll_document` errors exactly when the next chunks do
not conform to the grammar one begin, ZERO or more segments, one end (with
end-of-input at the start being the accepted exhaustion case); in particular
begin followed by begin raises, and on a conforming begin..end sequence the
document id and segment list are returned without error. -/
theorem c3_structure_errors (ls : List PyStr) :
    ((∃ e, read_conll_document ls = Except.error e) ↔ ¬ ConformingDoc ls) ∧
    (∀ doc_id rest segs rest2,
      read_conll_chunk ls = (ConllChunk.beginDocument doc_id, rest) →
      SegsEnd rest segs rest2 →
      read_conll_document ls = Except.ok (some (doc_id, segs), rest2)) ∧
    (∀ doc_id rest doc_id2 rest2,
      read_conll_chunk ls = (ConllChunk.beginDocument doc_id, rest) →
      read_conll_chunk rest = (ConllChunk.beginDocument doc_id2, rest2) →
      ∃ e, read_conll_document ls = Except.error e) := by
  refine ⟨⟨?_, ?_⟩, fun doc_id rest segs rest2 hb hs => read_conll_document_ok hb hs, ?_⟩
  · rintro ⟨e, he⟩ hconf
    rcases hconf with hc | ⟨doc_id, rest, segs, rest2, hb, hs⟩
    · unfold read_conll_document at he
      rcases hch : read_conll_chunk ls with ⟨c, r⟩
      rw [hch] at he hc
      dsimp only at hc
      subst hc
      dsimp only at he
      simp at he
    · rw [read_conll_document_ok hb hs] at he
      simp at he
  · intro hnc
    rcases hch : read_conll_chunk ls with ⟨c, r⟩
    cases c with
    | endFile => exact absurd (Or.inl (by rw [hch])) hnc
    | beginDocument d =>
      rcases hrs : readSegments r with ⟨segs, c2, rest2⟩
      cases c2 with
      | endDocument =>
        exact absurd (Or.inr ⟨d, r, segs, rest2, hch,
          readSegmentsFuel_SegsEnd (r.length + 1) r segs rest2 (Nat.lt_succ_self _) hrs⟩) hnc
      | endFile =>
        refine ⟨"Unexpected chunk", ?_⟩
        unfold read_conll_document
        rw [hch]
        dsimp only
        rw [hrs]
      | beginDocument d2 =>
        refine ⟨"Unexpected chunk", ?_⟩
        unfold read_conll_document
        rw [hch]
        dsimp only
        rw [hrs]
      | segment s2 =>
        refine ⟨"Unexpected chunk", ?_⟩
        unfold read_conll_document
        rw [hch]
        dsimp only
        rw [hrs]
    | endDocument =>
      refine ⟨"Unexpected chunk", ?_⟩
      unfold read_conll_document
      rw [hch]
    | segment s =>
      refine ⟨"Unexpected chunk", ?_⟩
      unfold read_conll_document
      rw [hch]
  · intro doc_id rest doc_id2 rest2 hb hb2
    refine ⟨"Unexpected chunk", ?_⟩
    unfold read_conll_document
    rw [hb]
    dsimp only
    have hrs : readSegments rest = ([], ConllChunk.beginDocument doc_id2, rest2) := by
      unfold readSegments
      simp [readSegmentsFuel, hb2]
    rw [hrs]

/-- C3 witness: begin immediately followed by begin raises. -/
theorem c3_witness :
    ∃ e, read_conll_document ["#begin document a".data, "#begin document b".data] =
      Except.error e :=
  (c3_structure_errors _).2.2 "a".data ["#begin document b".data] "b".data []
    (by decide) (by decide)

/-- C4: on a well-formed stream holding N documents, the corpus iterator
yields exactly those N documents, in stream order, and stops. -/
theorem c4_yields_all_documents (ls : List PyStr) (ds : List (PyStr × List (List PyStr)))
    (h : DocsFrom ls ds)
    (hdec : ∀ p ∈ ds, ∃ sents, processSegments p.2 = Except.ok sents) :
    ∃ docs, read_conll_file ls = Except.ok docs ∧ docs.length = ds.length ∧
      List.Forall₂ (fun (d : Document) (p : PyStr × List (List PyStr)) =>
        ∃ sents, processSegments p.2 = Except.ok sents ∧
          d = process_conll_document p.1 sents) docs ds := by
  obtain ⟨docs, hfile, hfa⟩ :=
    DocsFrom_read_conll_fileFuel (ls.length + 1) ls ds h (Nat.lt_succ_self _) hdec
  refine ⟨docs, ?_, hfa.length_eq, hfa⟩
  unfold read_conll_file
  rw [hfile]
  rfl

/-- C4 witness: a one-document stream yields exactly one document. -/
theorem c4_witness :
    ∃ docs, read_conll_file ["#begin document a".data, "x x 0 t -".data, "".data,
      "#end document".data] = Except.ok docs ∧ docs.length = 1 := by
  have hse : SegsEnd ["x x 0 t -".data, "".data, "#end document".data]
      [["x x 0 t -".data]] [] := by
    apply SegsEnd.step _ ["x x 0 t -".data] ["#end document".data] [] []
    · decide
    · exact SegsEnd.done _ _ (by decide)
  have hdf : DocsFrom ["#begin document a".data, "x x 0 t -".data, "".data,
      "#end document".data] [("a".data, [["x x 0 t -".data]])] := by
    apply DocsFrom.doc _ "a".data ["x x 0 t -".data, "".data, "#end document".data]
      [["x x 0 t -".data]] [] []
    · decide
    · exact hse
    · exact DocsFrom.eof [] [] (by decide)
  have hdec : ∀ p ∈ [("a".data, [["x x 0 t -".data]])],
      ∃ sents, processSegments p.2 = Except.ok sents := by
    intro p hp
    simp only [List.mem_singleton] at hp
    subst hp
    exact ⟨[⟨["t".data], []⟩], by decide⟩
  obtain ⟨docs, hfile, hlen, _⟩ := c4_yields_all_documents _ _ hdf hdec
  exact ⟨docs, hfile, by simpa using hlen⟩

/-- C5: the assembled document's mentions are exactly the sentences'
reference triples grouped by entity id (each cluster holds the triples of
exactly one id, tagged with their sentence index), in first-insertion order,
with the entity id itself dropped; tokens and id pass through unchanged. -/
theorem c5_mentions_cluster (doc_id : PyStr) (sents : List Sentence) :
    (process_conll_document doc_id sents).mentions = specMentions sents ∧
    (process_conll_document doc_id sents).tokens = sents.map Sentence.tokens ∧
    (process_conll_document doc_id sents).doc_id = doc_id := by
  refine ⟨?_, rfl, rfl⟩
  show (sents.enum.foldl (fun m p => insertRefs m p.1 p.2.references) []).map Prod.snd =
    specMentions sents
  rw [mentions_foldl_docRefs, foldl_dictAppend_groups, List.map_map]
  rfl

/-- C6: a close code for entity N at a point where the open-span list holds
no entry for N makes the segment decoder fail hard (the StopIteration of the
exhausted generator in `next(...)`); no sentence is returned. -/
theorem c6_unmatched_close_fails
    (ls1 : List PyStr) (l : PyStr) (ls2 : List PyStr) (st : DecState)
    (f2 : PyStr) (w : Int) (flast : PyStr) (codes1 : List PyStr) (c : PyStr)
    (codes2 : List PyStr) (o : List (Int × Int)) (s : List (Int × Int × Int)) (N : Int)
    (hpre : processLines ⟨[], [], []⟩ ls1 = Except.ok st)
    (hf2 : pyIdx (pySplit l) 2 = Except.ok f2)
    (hw : parseInt (pyStrip f2) = Except.ok w)
    (hlast : pyLast (pySplit l) = Except.ok flast)
    (hsplit : pySplitBar (pyStrip flast) = codes1 ++ c :: codes2)
    (hcodes1 : processCodes w (st.open_list, st.spans) codes1 = Except.ok (o, s))
    (hcs : pyStartsWith "(".data c = false) (hce : pyEndsWith ")".data c = true)
    (hcp : parseInt c.dropLast = Except.ok N)
    (ho : ∀ q ∈ o, q.1 ≠ N) :
    process_conll_sentence (ls1 ++ l :: ls2) = Except.error "StopIteration" := by
  have hcfail : processCodes w (st.open_list, st.spans) (codes1 ++ c :: codes2) =
      Except.error "StopIteration" := by
    rw [processCodes_append, hcodes1]
    dsimp only
    simp only [processCodes]
    rw [processCode_unmatched hcs hce hcp ho s]
  have hline : processLine st l = Except.error "StopIteration" := by
    unfold processLine
    dsimp only
    rw [hf2]
    dsimp only
    rw [hw]
    dsimp only
    rw [hlast]
    dsimp only
    rw [hsplit, hcfail]
  have hlines : processLines ⟨[], [], []⟩ (ls1 ++ l :: ls2) =
      Except.error "StopIteration" := by
    rw [processLines_append, hpre]
    dsimp only
    simp only [processLines]
    rw [hline]
  unfold process_conll_sentence
  rw [hlines]

/-- C6 witness: a lone close code with an empty open list fails. -/
theorem c6_witness :
    process_conll_sentence ["d p 0 tok 1)".data] = Except.error "StopIteration" := by
  have h := c6_unmatched_close_fails [] "d p 0 tok 1)".data [] ⟨[], [], []⟩
    "0".data 0 "1)".data [] "1)".data [] [] [] 1
    rfl (by decide) (by decide) (by decide) (by decide) rfl
    (by decide) (by decide) (by decide) (by simp)
  simpa using h

/-- C7 counterexample: the decoder accepts a segment whose recorded word
position (5) lies outside its one-token sentence, yielding reference
(1, 5, 5) with 5 not less than the token count 1. -/
theorem c7_counterexample :
    process_conll_sentence ["d p 5 tok (1)".data] =
      Except.ok ⟨["tok".data], [(1, 5, 5)]⟩ ∧ ¬((5 : Int) < (1 : Int)) := by
  exact ⟨by decide, by decide⟩

/-- C7 amended: provided each line's word-position field parses to its
0-based index in the segment, every reference triple of an accepted sentence
satisfies 0 ≤ start ≤ end < number of tokens. -/
theorem c7_references_in_range (lines : List PyStr) (sent : Sentence)
    (hpos : ∀ i (hi : i < lines.length),
      parseWordPos (lines.get ⟨i, hi⟩) = Except.ok (i : Int))
    (h : process_conll_sentence lines = Except.ok sent) :
    ∀ r ∈ sent.references,
      0 ≤ r.2.1 ∧ r.2.1 ≤ r.2.2 ∧ r.2.2 < (sent.tokens.length : Int) := by
  unfold process_conll_sentence at h
  rcases hpl : processLines ⟨[], [], []⟩ lines with e | st <;> rw [hpl] at h
  · simp at h
  dsimp only at h
  have hsent : sent = Sentence.make st.tokens st.spans := by
    simp only [Except.ok.injEq] at h
    exact h.symm
  subst hsent
  obtain ⟨hlen, hs⟩ := processLines_bounds lines ⟨[], [], []⟩ st
    (by intro i hi; simpa using hpos i hi) (by simp) (by simp) hpl
  intro r hr
  have hr2 := hs r hr
  have htl : (Sentence.make st.tokens st.spans).tokens.length = st.tokens.length := by
    simp [Sentence.make, normalize]
  rw [htl]
  exact hr2

/-- C7 witness: a position-consistent one-line segment has its single
reference in range. -/
theorem c7_witness :
    (0 : Int) ≤ 0 ∧ (0 : Int) ≤ 0 ∧
      (0 : Int) < ((Sentence.mk ["tok".data] [(1, 0, 0)]).tokens.length : Int) := by
  have happ := c7_references_in_range ["d p 0 tok (1)".data]
    (Sentence.mk ["tok".data] [(1, 0, 0)])
    (by
      intro i hi
      have h0 : i = 0 := by
        simp only [List.length_singleton] at hi
        omega
      subst h0
      have hget : (["d p 0 tok (1)".data] : List PyStr).get ⟨0, hi⟩ =
          "d p 0 tok (1)".data := rfl
      rw [hget]
      decide)
    (by decide) (1, 0, 0) (by simp)
  simpa using happ

/-- C8 counterexample: segment line a b c carries no bracket-shaped code in
its last field, yet decoding fails (the position field c is not an integer)
instead of returning a sentence. -/
theorem c8_counterexample :
    pyLast (pySplit "a b c".data) = Except.ok "c".data ∧
    (∀ code ∈ pySplitBar (pyStrip "c".data),
      pyStartsWith "(".data code = false ∧ pyEndsWith ")".data code = false) ∧
    process_conll_sentence ["a b c".data] = Except.error "ValueError" := by
  exact ⟨by decide, by decide, by decide⟩

/-- C8 amended: bracket-free codes are skipped without touching the open
list, and every segment whose lines each have a parsable integer position
field, a token field, and only bracket-free coreference codes decodes
without error to a sentence with an empty reference set and one token per
line. -/
theorem c8_no_codes_plain :
    (∀ (w : Int) (acc : List (Int × Int) × List (Int × Int × Int)) (c : PyStr),
      pyStartsWith "(".data c = false → pyEndsWith ")".data c = false →
      processCode w acc c = Except.ok acc) ∧
    ∀ lines : List PyStr,
      (∀ l ∈ lines, ∃ f2 w f3 flast,
        pyIdx (pySplit l) 2 = Except.ok f2 ∧ parseInt (pyStrip f2) = Except.ok w ∧
        pyIdx (pySplit l) 3 = Except.ok f3 ∧ pyLast (pySplit l) = Except.ok flast ∧
        ∀ c ∈ pySplitBar (pyStrip flast),
          pyStartsWith "(".data c = false ∧ pyEndsWith ")".data c = false) →
      ∃ sent, process_conll_sentence lines = Except.ok sent ∧
        sent.references = [] ∧ sent.tokens.length = lines.length := by
  constructor
  · intro w acc c h1 h2
    exact processCode_skip h1 h2 acc
  · intro lines hl
    obtain ⟨toks, hrec, hlen⟩ := processLines_no_brackets lines ⟨[], [], []⟩ hl
    refine ⟨Sentence.make toks [], ?_, rfl, ?_⟩
    · unfold process_conll_sentence
      rw [hrec]
      dsimp only
      simp [Sentence.make]
    · simp [Sentence.make, normalize, hlen]

/-- C8 witness: a line whose only code is a bare dash decodes to one token
and no references. -/
theorem c8_witness :
    ∃ sent, process_conll_sentence ["a b 0 tok -".data] = Except.ok sent ∧
      sent.references = [] ∧ sent.tokens.length = 1 := by
  have hcond : ∀ l ∈ (["a b 0 tok -".data] : List PyStr), ∃ f2 w f3 flast,
      pyIdx (pySplit l) 2 = Except.ok f2 ∧ parseInt (pyStrip f2) = Except.ok w ∧
      pyIdx (pySplit l) 3 = Except.ok f3 ∧ pyLast (pySplit l) = Except.ok flast ∧
      ∀ c ∈ pySplitBar (pyStrip flast),
        pyStartsWith "(".data c = false ∧ pyEndsWith ")".data c = false := by
    intro l hl
    simp only [List.mem_singleton] at hl
    subst hl
    exact ⟨"0".data, 0, "tok".data, "-".data,
      by decide, by decide, by decide, by decide, by decide⟩
  have h := c8_no_codes_plain.2 ["a b 0 tok -".data] hcond
  simpa using h

/-- C9: token normalization (rewriting -LRB- and -RRB-) is idempotent. -/
theorem c9_normalize_idempotent (tokens : List PyStr) :
    normalize (normalize tokens) = normalize tokens := by
  unfold normalize
  rw [List.map_map]
  apply List.map_congr_left
  intro t _
  simp only [Function.comp_apply]
  by_cases h1 : t = "-LRB-".data
  · subst h1; decide
  by_cases h2 : t = "-RRB-".data
  · subst h2; decide
  · have ht : normalizeToken t = t := by simp [normalizeToken, h1, h2]
    rw [ht]
    exact ht

/-- C10: every chunk read either consumes at least one line or signals end
of input; end of input at the expect-begin state returns the exhaustion
sentinel and makes the corpus iterator stop; and the fuel bound of the
iteration loop is never exhausted on a finite stream. -/
theorem c10_termination (ls : List PyStr) :
    ((read_conll_chunk ls).2.length < ls.length ∨
      ((read_conll_chunk ls).1 = ConllChunk.endFile ∧
        (read_conll_chunk ls).2.length ≤ ls.length)) ∧
    (read_conll_fileFuel (ls.length + 1) ls).isSome = true ∧
    (∀ rest, read_conll_chunk ls = (ConllChunk.endFile, rest) →
      read_conll_document ls = Except.ok (none, rest) ∧
      read_conll_file ls = Except.ok []) := by
  refine ⟨?_, read_conll_fileFuel_isSome (ls.length + 1) ls (Nat.lt_succ_self _), ?_⟩
  · rcases hch : read_conll_chunk ls with ⟨c, r⟩
    cases c with
    | endFile =>
      right
      refine ⟨rfl, ?_⟩
      have := read_conll_chunk_length ls
      rw [hch] at this
      exact this
    | beginDocument d =>
      exact Or.inl (read_conll_chunk_consumes hch (by simp))
    | endDocument =>
      exact Or.inl (read_conll_chunk_consumes hch (by simp))
    | segment s =>
      exact Or.inl (read_conll_chunk_consumes hch (by simp))
  · intro rest hrest
    have hdoc : read_conll_document ls = Except.ok (none, rest) := by
      unfold read_conll_document
      rw [hrest]
    refine ⟨hdoc, ?_⟩
    unfold read_conll_file
    simp [read_conll_fileFuel, hdoc]

/-- C10 witness: the empty stream is exhausted immediately. -/
theorem c10_witness :
    read_conll_document [] = Except.ok (none, []) ∧ read_conll_file [] = Except.ok [] :=
  (c10_termination []).2.2 [] rfl

end Conll
